import Mathlib

/-!
Verification development for the fastuidraw core (path tessellation and
painter attribute-chunk packing).  The repository ships three headers:
`path.hpp`, `tessellated_path.hpp` and `painter_attribute_data.hpp`.
Functions defined inline in those headers are embedded directly; the
bodies that live in the (absent) translation units are modelled from the
specification, and each such definition carries a doc comment saying so.
-/

namespace FastUIDraw

/-!
## Source-faithful embedding of inline header code

`PainterAttributeData::stroking_data_t` is a C++ enumeration; its
enumerators take the integer values assigned by the compiler, which the
header fixes by the explicit `rounded_joins_no_closing_edge =
number_with_closing_edge` assignment.  We embed the enumerators as their
integer values.
-/

namespace PainterAttributeData

/-- `stroking_data_t::rounded_joins_closing_edge` (value 0). -/
def rounded_joins_closing_edge : ℕ := 0

/-- `stroking_data_t::bevel_joins_closing_edge` (value 1). -/
def bevel_joins_closing_edge : ℕ := 1

/-- `stroking_data_t::miter_joins_closing_edge` (value 2). -/
def miter_joins_closing_edge : ℕ := 2

/-- `stroking_data_t::edge_closing_edge` (value 3). -/
def edge_closing_edge : ℕ := 3

/-- `stroking_data_t::number_with_closing_edge` (value 4). -/
def number_with_closing_edge : ℕ := 4

/-- `stroking_data_t::rounded_joins_no_closing_edge`, explicitly assigned
`number_with_closing_edge` in the header (value 4). -/
def rounded_joins_no_closing_edge : ℕ := number_with_closing_edge

/-- `stroking_data_t::bevel_joins_no_closing_edge` (value 5). -/
def bevel_joins_no_closing_edge : ℕ := 5

/-- `stroking_data_t::miter_joins_no_closing_edge` (value 6). -/
def miter_joins_no_closing_edge : ℕ := 6

/-- `stroking_data_t::edge_no_closing_edge` (value 7). -/
def edge_no_closing_edge : ℕ := 7

/-- `stroking_data_t::rounded_cap` (value 8). -/
def rounded_cap : ℕ := 8

/-- `stroking_data_t::square_cap` (value 9). -/
def square_cap : ℕ := 9

/-- `stroking_data_t::stroking_data_count` (value 10): the number of
distinct chunk slots used for stroking. -/
def stroking_data_count : ℕ := 10

/-- Embedding of the inline header function
`PainterAttributeData::without_closing_edge`:
`return (v < number_with_closing_edge) ? v + number_with_closing_edge : v;`. -/
def without_closing_edge (v : ℕ) : ℕ :=
  if v < number_with_closing_edge then v + number_with_closing_edge else v

end PainterAttributeData

/-!
## `TessellatedPath::TessellationParams` (inline in `tessellated_path.hpp`)

The scalar type is left polymorphic (`float` in the source); the default
constructor instantiates it at `ℝ` so that `float(M_PI)/30.0f` can be
rendered exactly as `π / 30`.
-/

/-- `TessellatedPath::TessellationParams`: the three data members of the
class, scalar type abstracted. -/
structure TessellationParams (α : Type) where
  m_curvature_tessellation : Bool
  m_threshhold : α
  m_max_segments : ℕ

/-- The default constructor `TessellationParams(void)`, whose initializer
list is `m_curvature_tessellation(true), m_threshhold(float(M_PI)/30.0f),
m_max_segments(32)`. -/
noncomputable def TessellationParams.mkDefault : TessellationParams ℝ :=
  { m_curvature_tessellation := true
    m_threshhold := Real.pi / 30
    m_max_segments := 32 }

/-- The observable construction state of a `Path` as far as the default
constructor is concerned: the tessellation parameters it stores and its
(initially empty) contour list.  Contours are left abstract here. -/
structure PathCtorState (α : Type) where
  tess_params : TessellationParams α
  outlines : List Unit

/-- The constructor `Path(const TessellationParams &tess_params)`:
records the passed parameters, with no outlines yet. -/
def mkPath {α : Type} (tess_params : TessellationParams α) : PathCtorState α :=
  { tess_params := tess_params, outlines := [] }

/-- `Path()` called without an explicit argument: the header declares the
default argument `tess_params = TessellatedPath::TessellationParams()`. -/
noncomputable def mkPathDefault : PathCtorState ℝ :=
  mkPath TessellationParams.mkDefault

/-!
## Spec-modelled edge tessellation (`produce_tessellation`)

The bodies of `PathContour::flat::produce_tessellation`,
`interpolator_generic::produce_tessellation` and
`arc::produce_tessellation` live in the absent `path.cpp`; they are
modelled from the specification here.  Coordinates are embedded as `ℚ`
(the source uses `float`); the curve-sample metadata other than position
is irrelevant to the endpoint claims and omitted.
-/

/-- A 2D point (`vec2` in the source), with `float` embedded as `ℚ`. -/
abbrev Vec2 := ℚ × ℚ

/-- Modelled from the spec: the edge variants whose `produce_tessellation`
bodies are in the absent `path.cpp`.  `flat` is a straight edge;
`curve` covers `interpolator_generic` (and thus `bezier`) and `arc`:
it carries the curve's evaluation oracle on `t ∈ [0,1]` and the
deviation estimator (curvature-mode Simpson estimate or chord-distance
estimate) that drives adaptive bisection.  Every variant stores its
declared start and end point. -/
inductive Interpolator where
  | flat (a b : Vec2)
  | curve (a b : Vec2) (eval : ℚ → Vec2) (deviation : ℚ → ℚ → ℚ)

/-- `interpolator_base::start_pt()`. -/
def Interpolator.start_pt : Interpolator → Vec2
  | .flat a _ => a
  | .curve a _ _ _ => a

/-- `interpolator_base::end_pt()`. -/
def Interpolator.end_pt : Interpolator → Vec2
  | .flat _ b => b
  | .curve _ b _ _ => b

/-- Modelled from the spec: the recursive adaptive bisection of
`interpolator_generic::produce_tessellation` (absent `path.cpp`).
Starting from the two endpoints of a parameter interval, a sub-interval
whose estimated deviation exceeds the threshold is split at its
midpoint, recursion bounded by the `m_max_segments` budget; the shared
midpoint sample is not duplicated inside a single edge. -/
def adaptiveTess (eval : ℚ → Vec2) (tooCoarse : ℚ → ℚ → Bool) :
    ℕ → ℚ → ℚ → Vec2 → Vec2 → List Vec2
  | 0, _, _, p0, p1 => [p0, p1]
  | n + 1, t0, t1, p0, p1 =>
    if tooCoarse t0 t1 then
      let tm := (t0 + t1) / 2
      let pm := eval tm
      adaptiveTess eval tooCoarse n t0 tm p0 pm ++
        (adaptiveTess eval tooCoarse n tm t1 pm p1).tail
    else [p0, p1]

/-- Modelled from the spec: `produce_tessellation` dispatched over the
edge variants (absent `path.cpp`).  A flat edge yields exactly its two
endpoints; a curve edge runs adaptive bisection over `[0,1]` between its
declared endpoints, splitting while the deviation estimate exceeds
`m_threshhold`, capped by `m_max_segments`. -/
def produce_tessellation (params : TessellationParams ℚ) :
    Interpolator → List Vec2
  | .flat a b => [a, b]
  | .curve a b eval dev =>
      adaptiveTess eval (fun t0 t1 => decide (params.m_threshhold < dev t0 t1))
        params.m_max_segments 0 1 a b

/-!
## Spec-modelled tessellated-path buffer and ranges

`TessellatedPath`'s constructor and accessors live in the absent
`tessellated_path.cpp`; the buffer assembly is modelled from the
specification: every contour's edge tessellations are appended, in
declared order (closing edge last), to one global point buffer, and each
contour's range is recorded.
-/

/-- `range_type<unsigned int>`: a half-open index range
`[m_begin, m_end)`. -/
structure range_type where
  m_begin : ℕ
  m_end : ℕ

/-- Modelled from the spec: the tessellation input of one contour — the
per-edge sample-point lists produced by `produce_tessellation`, in edge
order with the closing edge last. -/
abbrev ContourSamples := List (List Vec2)

/-- Modelled from the spec: the global point buffer
`TessellatedPath::point_data()` — every contour's edge samples
concatenated in declared order. -/
def point_data (P : List ContourSamples) : List Vec2 :=
  (P.map (fun ct => ct.flatten)).flatten

/-- The number of sample points one contour contributes to the buffer. -/
def contourSize (ct : ContourSamples) : ℕ := (ct.map List.length).sum

/-- Modelled from the spec: `TessellatedPath::contour_range` — contour
`c` occupies the range starting at the total size of the contours before
it and extending for its own size. -/
def contour_range (P : List ContourSamples) (c : ℕ) : range_type :=
  ⟨((P.take c).map contourSize).sum, ((P.take (c + 1)).map contourSize).sum⟩

/-- Modelled from the spec:
`TessellatedPath::unclosed_contour_range` — same begin as
`contour_range`, but the closing edge (the last edge of the contour) is
excluded from the extent. -/
def unclosed_contour_range (P : List ContourSamples) (c : ℕ) : range_type :=
  ⟨((P.take c).map contourSize).sum,
   ((P.take c).map contourSize).sum + contourSize ((P.getD c []).dropLast)⟩

/-!
## Spec-modelled arclength metadata

The tessellation stage accumulates a running arclength per contour by
summing each edge's measured polyline length (sum of
consecutive-sample distances).  The segment-length function `d` is a
parameter (the source uses the Euclidean norm on `float`s); the claims
need only that it is non-negative.
-/

/-- Modelled from the spec: the measured polyline length of an edge's
samples — the sum of consecutive-sample distances under `d`. -/
def polyLen (d : Vec2 → Vec2 → ℚ) : List Vec2 → ℚ
  | p :: q :: rest => d p q + polyLen d (q :: rest)
  | _ => 0

/-- Modelled from the spec: the tail of the per-point
`m_distance_from_edge_start` values of one edge; `acc` is the distance
accumulated up to the sample `prev`. -/
def edgeDistsFrom (d : Vec2 → Vec2 → ℚ) : ℚ → Vec2 → List Vec2 → List ℚ
  | _, _, [] => []
  | acc, prev, p :: rest =>
      (acc + d prev p) :: edgeDistsFrom d (acc + d prev p) p rest

/-- Modelled from the spec: the `m_distance_from_edge_start` value of
every sample of one edge, in buffer order (the first sample is at
distance 0). -/
def edgeDists (d : Vec2 → Vec2 → ℚ) : List Vec2 → List ℚ
  | [] => []
  | p :: rest => 0 :: edgeDistsFrom d 0 p rest

/-- Modelled from the spec: the per-edge blocks of
`m_distance_from_contour_start` values of one contour — each edge's
distances shifted by the arclength `acc` accumulated over the previous
edges of that contour. -/
def contourDistBlocks (d : Vec2 → Vec2 → ℚ) : ℚ → List (List Vec2) → List (List ℚ)
  | _, [] => []
  | acc, e :: rest =>
      ((edgeDists d e).map (fun x => acc + x)) ::
        contourDistBlocks d (acc + polyLen d e) rest

/-- Modelled from the spec: the `m_distance_from_contour_start` value of
every sample of one contour, in buffer order. -/
def contourDists (d : Vec2 → Vec2 → ℚ) (edges : List (List Vec2)) : List ℚ :=
  (contourDistBlocks d 0 edges).flatten

/-!
## Spec-modelled glyph attribute packing

The bodies of the glyph overloads of `PainterAttributeData::set_data`
live in the absent `painter_attribute_data.cpp`; they are modelled from
the specification and from the packing layout documented in the header
(`painter_attribute_data.hpp`, the doc comment preceding the class).
-/

/-- A 4-component vector (`vecN<T, 4>` in the source) with the C++
`.x .y .z .w` accessors. -/
structure vec4 (α : Type) where
  x : α
  y : α
  z : α
  w : α
deriving DecidableEq

/-- `PainterAttribute`: two 4-component float fields and one
4-component 32-bit unsigned field. -/
structure PainterAttribute where
  m_primary_attrib : vec4 ℚ
  m_secondary_attrib : vec4 ℚ
  m_uint_attrib : vec4 ℕ
deriving DecidableEq

/-- Modelled from the spec: the per-glyph data the packing consumes from
the external glyph cache (`glyph.hpp` is outside this repository's
core): whether its upload to the atlas succeeds, its cache offset
(handle), atlas texel origins and layers for both atlases, its size and
its render type. -/
structure Glyph where
  uploads : Bool
  glyph_offset : ℕ
  primary_texel : Vec2
  primary_layer : ℕ
  secondary_texel : Vec2
  secondary_layer : ℕ
  size : Vec2
  render_type : ℕ
deriving DecidableEq

/-- The glyph vertex-record layout documented in
`painter_attribute_data.hpp`: primary.xy the primary-atlas texel
location, primary.zw the secondary-atlas texel location, secondary.xy
the position in item coordinates, secondary.z and secondary.w 0.0
(free), uint = (0, glyph offset, primary-atlas layer, secondary-atlas
layer). -/
def packGlyphAttr (g : Glyph) (texP texS pos : Vec2) : PainterAttribute :=
  { m_primary_attrib := ⟨texP.1, texP.2, texS.1, texS.2⟩
    m_secondary_attrib := ⟨pos.1, pos.2, 0, 0⟩
    m_uint_attrib := ⟨0, g.glyph_offset, g.primary_layer, g.secondary_layer⟩ }

/-- The four unit corners of a glyph quad. -/
def quadCorners : List Vec2 := [(0, 0), (1, 0), (0, 1), (1, 1)]

/-- Modelled from the spec: the 4 vertex records of one glyph's quad.
Each corner's texel is the atlas origin advanced by the corner fraction
of the glyph size; the item-space corner is the placement position
advanced by the scaled corner offset, with the vertical corner mapping
flipped when the orientation is `y_increases_downwards`. -/
def glyphQuad (yDown : Bool) (g : Glyph) (pos : Vec2) (scale : ℚ) :
    List PainterAttribute :=
  quadCorners.map fun u =>
    let vy : ℚ := if yDown then 1 - u.2 else u.2
    packGlyphAttr g
      (g.primary_texel.1 + u.1 * g.size.1, g.primary_texel.2 + u.2 * g.size.2)
      (g.secondary_texel.1 + u.1 * g.size.1, g.secondary_texel.2 + u.2 * g.size.2)
      (pos.1 + scale * (u.1 * g.size.1), pos.2 + scale * (vy * g.size.2))

/-- One chunk: an attribute array, the matching index array and the
chunk's z-increment. -/
structure Chunk where
  attribs : List PainterAttribute
  indices : List ℕ
  zinc : ℕ

/-- The empty chunk. -/
def Chunk.empty : Chunk := ⟨[], [], 0⟩

/-- The glyph chunk set: one chunk per glyph render type. -/
def GlyphChunks : Type := ℕ → Chunk

/-- All chunks empty. -/
def emptyGlyphChunks : GlyphChunks := fun _ => Chunk.empty

/-- The 6 triangle indices of the quad whose 4 corners start at offset
`base` of its chunk's attribute array. -/
def quadIndices (base : ℕ) : List ℕ :=
  [base, base + 1, base + 2, base, base + 2, base + 3]

/-- Modelled from the spec: appending one successfully uploaded glyph's
quad (4 attributes, 6 indices) to the chunk of the glyph's render type
and incrementing that chunk's z-increment by 1. -/
def appendGlyph (yDown : Bool) (cs : GlyphChunks) (g : Glyph) (pos : Vec2)
    (scale : ℚ) : GlyphChunks :=
  fun t =>
    if t = g.render_type then
      { attribs := (cs t).attribs ++ glyphQuad yDown g pos scale
        indices := (cs t).indices ++ quadIndices (cs t).attribs.length
        zinc := (cs t).zinc + 1 }
    else cs t

/-- Modelled from the spec: the glyph-packing loop of the glyph
`set_data` — glyphs are processed in order; if a glyph's upload to the
glyph cache fails, the loop stops immediately and returns the number of
glyphs processed so far together with the chunks already built;
otherwise the glyph's quad is appended and the loop continues. -/
def packGlyphsLoop (yDown : Bool) :
    GlyphChunks → ℕ → List (Glyph × Vec2 × ℚ) → ℕ × GlyphChunks
  | cs, done, [] => (done, cs)
  | cs, done, (g, pos, sc) :: rest =>
      if g.uploads then
        packGlyphsLoop yDown (appendGlyph yDown cs g pos sc) (done + 1) rest
      else (done, cs)

/-- Modelled from the spec: the per-glyph inputs of one glyph `set_data`
call — the glyphs zipped with their positions and resolved scale
factors (an empty scale array means no scaling, i.e. factor 1 for every
glyph). -/
def glyphInputs (glyph_positions : List Vec2) (glyphs : List Glyph)
    (scale_factors : List ℚ) : List (Glyph × Vec2 × ℚ) :=
  glyphs.zip (glyph_positions.zip
    (if scale_factors.isEmpty then glyph_positions.map (fun _ => 1)
     else scale_factors))

/-- Modelled from the spec: the glyph overload
`PainterAttributeData::set_data(glyph_positions, glyphs, scale_factors,
orientation)`.  A non-empty scale-factor array whose length differs
from the position array is a contract violation (fails fast, modelled
as `Except.error`); otherwise the packing loop runs and the call
returns the number of glyphs packed together with the produced
chunks. -/
def glyph_set_data (yDown : Bool) (glyph_positions : List Vec2)
    (glyphs : List Glyph) (scale_factors : List ℚ) :
    Except Unit (ℕ × GlyphChunks) :=
  if ¬scale_factors.isEmpty ∧ scale_factors.length ≠ glyph_positions.length then
    .error ()
  else
    .ok (packGlyphsLoop yDown emptyGlyphChunks 0
      (glyphInputs glyph_positions glyphs scale_factors))

/-!
## Spec-modelled chunk accessors of `PainterAttributeData`
-/

/-- Modelled from the spec: the chunk arrays stored by a
`PainterAttributeData` object (bodies in the absent
`painter_attribute_data.cpp`). -/
structure PainterAttributeDataM where
  attribute_chunks : List (List PainterAttribute)
  index_chunks : List (List ℕ)
  zincs : List ℕ

/-- Modelled from the spec/header doc:
`PainterAttributeData::attribute_data_chunk(i)` — the named chunk of the
attribute chunk array, or an empty chunk if `i` is out of range. -/
def attribute_data_chunk (D : PainterAttributeDataM) (i : ℕ) :
    List PainterAttribute :=
  D.attribute_chunks.getD i []

/-- Modelled from the spec/header doc:
`PainterAttributeData::index_data_chunk(i)` — the named chunk of the
index chunk array, or an empty chunk if `i` is out of range. -/
def index_data_chunk (D : PainterAttributeDataM) (i : ℕ) : List ℕ :=
  D.index_chunks.getD i []

/-- Modelled from the spec/header doc:
`PainterAttributeData::increment_z_value(i)` — the named z-increment, or
0 if `i` is out of range. -/
def increment_z_value (D : PainterAttributeDataM) (i : ℕ) : ℕ :=
  D.zincs.getD i 0

/-!
## Spec-modelled lazy tessellation cache of `Path`
-/

/-- Modelled from the spec: the cache-relevant state of a `Path` — its
geometry, its tessellation parameters, the optional cached
`TessellatedPath` (tagged with a construction counter so that distinct
constructions are distinguishable), and the counter itself. -/
structure PathState (G P T : Type) where
  geometry : G
  params : P
  cache : Option (ℕ × T)
  next_id : ℕ

/-- Modelled from the spec: `Path::tessellation()` — return the cached
`TessellatedPath` if one is present; otherwise construct one from the
current geometry and parameters via `build`, cache it and return it. -/
def Path_tessellation {G P T : Type} (build : G → P → T)
    (s : PathState G P T) : (ℕ × T) × PathState G P T :=
  match s.cache with
  | some c => (c, s)
  | none =>
      ((s.next_id, build s.geometry s.params),
       { geometry := s.geometry, params := s.params,
         cache := some (s.next_id, build s.geometry s.params),
         next_id := s.next_id + 1 })

/-- Modelled from the spec: a modification of the Path's geometry
invalidates the cached tessellation. -/
def Path_set_geometry {G P T : Type} (s : PathState G P T) (g : G) :
    PathState G P T :=
  { geometry := g, params := s.params, cache := none, next_id := s.next_id }

/-- Modelled from the spec: `Path::tessellation_params(p)` — changing
the tessellation parameters invalidates the cached tessellation. -/
def Path_set_params {G P T : Type} (s : PathState G P T) (p : P) :
    PathState G P T :=
  { geometry := s.geometry, params := p, cache := none, next_id := s.next_id }

end FastUIDraw

namespace FastUIDraw

/-!
## Theorems
-/

/-- Prefix sums of a list of naturals are monotone. -/
theorem sum_take_mono (l : List ℕ) :
    ∀ {a b : ℕ}, a ≤ b → (l.take a).sum ≤ (l.take b).sum := by
  induction l with
  | nil => intro a b _; simp
  | cons x xs ih =>
    intro a b hab
    cases a with
    | zero => simp
    | succ a' =>
      cases b with
      | zero => omega
      | succ b' =>
        simp only [List.take_succ_cons, List.sum_cons]
        exact Nat.add_le_add_left (ih (Nat.succ_le_succ_iff.mp hab)) x

/-- One-step unfolding of a prefix sum. -/
theorem sum_take_succ_getD (l : List ℕ) :
    ∀ c : ℕ, c < l.length → (l.take (c + 1)).sum = (l.take c).sum + l.getD c 0 := by
  induction l with
  | nil => intro c hc; simp at hc
  | cons x xs ih =>
    intro c hc
    cases c with
    | zero => simp
    | succ c' =>
      simp only [List.take_succ_cons, List.sum_cons, List.getD_cons_succ]
      rw [ih c' (by simpa using hc)]
      omega

/-- Any index below the `n`-th value of a function vanishing at 0 lies in
some step interval of that function. -/
theorem exists_step_interval (S : ℕ → ℕ) (h0 : S 0 = 0) :
    ∀ n i : ℕ, i < S n → ∃ c, c < n ∧ S c ≤ i ∧ i < S (c + 1) := by
  intro n
  induction n with
  | zero => intro i hi; omega
  | succ n ih =>
    intro i hi
    by_cases h : i < S n
    · obtain ⟨c, hc, h1, h2⟩ := ih i h
      exact ⟨c, Nat.lt_succ_of_lt hc, h1, h2⟩
    · exact ⟨n, Nat.lt_succ_self n, Nat.le_of_not_lt h, hi⟩

/-- `getD` commutes with `map` at in-range indices. -/
theorem getD_map_contourSize (P : List ContourSamples) :
    ∀ c : ℕ, c < P.length →
      (P.map contourSize).getD c 0 = contourSize (P.getD c []) := by
  induction P with
  | nil => intro c hc; simp at hc
  | cons ct P ih =>
    intro c hc
    cases c with
    | zero => simp
    | succ c' => simpa using ih c' (by simpa using hc)

/-- The buffer length is the sum of the contour sizes. -/
theorem point_data_length (P : List ContourSamples) :
    (point_data P).length = (P.map contourSize).sum := by
  induction P with
  | nil => rfl
  | cons ct P ih =>
    simp only [point_data, List.map_cons, List.flatten_cons, List.length_append,
      List.sum_cons] at *
    rw [ih, List.length_flatten]
    rfl

/-- Structure lemma: adaptive bisection always returns
`p0 :: middle ++ [p1]` for some middle part. -/
theorem adaptiveTess_shape (eval : ℚ → Vec2) (tooCoarse : ℚ → ℚ → Bool) :
    ∀ (n : ℕ) (t0 t1 : ℚ) (p0 p1 : Vec2),
      ∃ m : List Vec2, adaptiveTess eval tooCoarse n t0 t1 p0 p1 = p0 :: (m ++ [p1]) := by
  intro n
  induction n with
  | zero => intro t0 t1 p0 p1; exact ⟨[], rfl⟩
  | succ n ih =>
    intro t0 t1 p0 p1
    rw [adaptiveTess]
    by_cases h : tooCoarse t0 t1 = true
    · simp only [h, if_true]
      obtain ⟨m1, h1⟩ := ih t0 ((t0 + t1) / 2) p0 (eval ((t0 + t1) / 2))
      obtain ⟨m2, h2⟩ := ih ((t0 + t1) / 2) t1 (eval ((t0 + t1) / 2)) p1
      refine ⟨m1 ++ eval ((t0 + t1) / 2) :: m2, ?_⟩
      rw [h1, h2]
      simp
    · simp only [h, if_false]
      exact ⟨[], rfl⟩

/-- C2: for every edge interpolator, `produce_tessellation` returns a
non-empty sequence whose first point is the edge's declared start point
and whose last point is the edge's declared end point; for a `flat` edge
the result is exactly the two endpoints. -/
theorem C2_produce_tessellation_endpoints
    (params : TessellationParams ℚ) (interp : Interpolator) :
    produce_tessellation params interp ≠ [] ∧
    (produce_tessellation params interp).head? = some interp.start_pt ∧
    (produce_tessellation params interp).getLast? = some interp.end_pt ∧
    (∀ a b : Vec2, interp = .flat a b →
      produce_tessellation params interp = [a, b]) := by
  cases interp with
  | flat a b =>
    refine ⟨by simp [produce_tessellation], ?_, ?_, ?_⟩
    · rfl
    · rfl
    · intro a' b' h
      cases h
      rfl
  | curve a b eval dev =>
    obtain ⟨m, hm⟩ := adaptiveTess_shape eval
      (fun t0 t1 => decide (params.m_threshhold < dev t0 t1))
      params.m_max_segments 0 1 a b
    have hout : produce_tessellation params (.curve a b eval dev) = a :: (m ++ [b]) := hm
    refine ⟨by simp [hout], by simp [hout, Interpolator.start_pt], ?_, ?_⟩
    · rw [hout]
      show ((a :: m) ++ [b]).getLast? = some b
      rw [List.getLast?_concat]
    · intro a' b' h
      cases h

/-- C2 witness: the theorem applied to a concrete flat edge and concrete
tessellation parameters. -/
theorem C2_witness :
    produce_tessellation ⟨true, 1/10, 32⟩ (.flat (0, 0) (3, 4)) = [(0, 0), (3, 4)] :=
  (C2_produce_tessellation_endpoints ⟨true, 1/10, 32⟩
    (.flat (0, 0) (3, 4))).2.2.2 (0, 0) (3, 4) rfl

open PainterAttributeData in
/-- C5 counterexample: the claim says the stroke chunk set consists of 12
fixed slots, but the enumeration `stroking_data_t` in the header provides
exactly 10 chunk slots (4 with-closing-edge, 4 without, 2 caps). -/
theorem C5_counterexample : stroking_data_count ≠ 12 ∧ stroking_data_count = 10 := by
  decide

open PainterAttributeData in
/-- C5 (amended): the stroke chunk set consists of 10 fixed slots —
{rounded-join, bevel-join, miter-join, edge} × {with-closing-edge,
without-closing-edge} giving 8 slots, plus rounded-cap and square-cap —
where every with-closing-edge slot `v` satisfies
`without_closing_edge v = v + number_with_closing_edge` (a fixed offset),
and `without_closing_edge` fixes every other slot. -/
theorem C5_stroking_chunk_slots :
    stroking_data_count = 10 ∧
    number_with_closing_edge = 4 ∧
    rounded_joins_closing_edge = 0 ∧ bevel_joins_closing_edge = 1 ∧
    miter_joins_closing_edge = 2 ∧ edge_closing_edge = 3 ∧
    rounded_joins_no_closing_edge = 4 ∧ bevel_joins_no_closing_edge = 5 ∧
    miter_joins_no_closing_edge = 6 ∧ edge_no_closing_edge = 7 ∧
    rounded_cap = 8 ∧ square_cap = 9 ∧
    without_closing_edge rounded_joins_closing_edge = rounded_joins_closing_edge + number_with_closing_edge ∧
    without_closing_edge bevel_joins_closing_edge = bevel_joins_closing_edge + number_with_closing_edge ∧
    without_closing_edge miter_joins_closing_edge = miter_joins_closing_edge + number_with_closing_edge ∧
    without_closing_edge edge_closing_edge = edge_closing_edge + number_with_closing_edge ∧
    without_closing_edge rounded_joins_no_closing_edge = rounded_joins_no_closing_edge ∧
    without_closing_edge bevel_joins_no_closing_edge = bevel_joins_no_closing_edge ∧
    without_closing_edge miter_joins_no_closing_edge = miter_joins_no_closing_edge ∧
    without_closing_edge edge_no_closing_edge = edge_no_closing_edge ∧
    without_closing_edge rounded_cap = rounded_cap ∧
    without_closing_edge square_cap = square_cap := by
  decide

/-- Dropping the closing edge of a nonempty contour whose closing edge is
nonempty strictly decreases the contour's point count. -/
theorem contourSize_dropLast_lt (ct : ContourSamples) (hne : ct ≠ [])
    (hlast : ct.getLast hne ≠ []) :
    contourSize ct.dropLast < contourSize ct := by
  conv_rhs => rw [← List.dropLast_append_getLast hne]
  simp only [contourSize, List.map_append, List.sum_append, List.map_cons,
    List.map_nil, List.sum_cons, List.sum_nil]
  have hpos : 0 < (ct.getLast hne).length := List.length_pos.mpr hlast
  omega

/-- C3: the per-contour ranges are in increasing order, pairwise
non-overlapping, and their union covers `[0, point_data().size())`
exactly once; and `unclosed_contour_range` is a strict prefix of
`contour_range` (same begin, strictly smaller end). -/
theorem C3_contour_ranges_partition (P : List ContourSamples)
    (hct : ∀ ct ∈ P, ct ≠ [])
    (hedge : ∀ ct ∈ P, ∀ e ∈ ct, e ≠ []) :
    (∀ c : ℕ, (contour_range P c).m_begin ≤ (contour_range P c).m_end) ∧
    (∀ c c' : ℕ, c < c' →
      (contour_range P c).m_end ≤ (contour_range P c').m_begin) ∧
    (∀ i : ℕ, i < (point_data P).length →
      ∃ c, c < P.length ∧
        (contour_range P c).m_begin ≤ i ∧ i < (contour_range P c).m_end) ∧
    (∀ i c c' : ℕ,
      (contour_range P c).m_begin ≤ i → i < (contour_range P c).m_end →
      (contour_range P c').m_begin ≤ i → i < (contour_range P c').m_end →
      c = c') ∧
    (∀ c : ℕ, c < P.length →
      (unclosed_contour_range P c).m_begin = (contour_range P c).m_begin ∧
      (unclosed_contour_range P c).m_end < (contour_range P c).m_end) := by
  have hmb : ∀ c, (contour_range P c).m_begin = ((P.map contourSize).take c).sum := by
    intro c
    simp [contour_range, List.map_take]
  have hme : ∀ c, (contour_range P c).m_end = ((P.map contourSize).take (c + 1)).sum := by
    intro c
    simp [contour_range, List.map_take]
  have hub : ∀ c, (unclosed_contour_range P c).m_begin
      = ((P.map contourSize).take c).sum := by
    intro c
    simp [unclosed_contour_range, List.map_take]
  have hue : ∀ c, (unclosed_contour_range P c).m_end
      = ((P.map contourSize).take c).sum + contourSize ((P.getD c []).dropLast) := by
    intro c
    simp [unclosed_contour_range, List.map_take]
  have horder : ∀ c c' : ℕ, c < c' →
      (contour_range P c).m_end ≤ (contour_range P c').m_begin := by
    intro c c' hcc
    rw [hme, hmb]
    exact sum_take_mono _ hcc
  refine ⟨?_, horder, ?_, ?_, ?_⟩
  · intro c
    rw [hmb, hme]
    exact sum_take_mono _ (Nat.le_succ c)
  · intro i hi
    rw [point_data_length] at hi
    have hi' : i < ((P.map contourSize).take ((P.map contourSize).length)).sum := by
      rwa [List.take_length]
    obtain ⟨c, hc, h1, h2⟩ :=
      exists_step_interval (fun c => ((P.map contourSize).take c).sum) rfl
        (P.map contourSize).length i hi'
    refine ⟨c, by simpa using hc, ?_, ?_⟩
    · rw [hmb]; exact h1
    · rw [hme]; exact h2
  · intro i c c' h1 h2 h3 h4
    rcases lt_trichotomy c c' with h | h | h
    · exact absurd (lt_of_lt_of_le h2 (horder c c' h)) (by omega)
    · exact h
    · exact absurd (lt_of_lt_of_le h4 (horder c' c h)) (by omega)
  · intro c hc
    have hcm : P.getD c [] ∈ P := by
      rw [List.getD_eq_getElem?_getD, List.getElem?_eq_getElem hc]
      exact List.getElem_mem hc
    have hne : P.getD c [] ≠ [] := hct _ hcm
    have hlast : (P.getD c []).getLast hne ≠ [] :=
      hedge _ hcm _ (List.getLast_mem hne)
    refine ⟨by rw [hub, hmb], ?_⟩
    rw [hue, hme, sum_take_succ_getD _ c (by simpa using hc),
      getD_map_contourSize P c hc]
    have := contourSize_dropLast_lt (P.getD c []) hne hlast
    omega

/-- C3 witness: the theorem applied to a concrete one-contour path with
two flat edges (the second being the closing edge back to the start). -/
theorem C3_witness :
    (unclosed_contour_range [[[((0 : ℚ), (0 : ℚ)), (1, 0)], [(1, 0), (0, 0)]]] 0).m_end <
      (contour_range [[[((0 : ℚ), (0 : ℚ)), (1, 0)], [(1, 0), (0, 0)]]] 0).m_end :=
  ((C3_contour_ranges_partition
      [[[((0 : ℚ), (0 : ℚ)), (1, 0)], [(1, 0), (0, 0)]]]
      (by decide) (by decide)).2.2.2.2 0 (by decide)).2

/-- Polyline lengths are non-negative when segment lengths are. -/
theorem polyLen_nonneg (d : Vec2 → Vec2 → ℚ) (hd : ∀ a b, 0 ≤ d a b) :
    ∀ ps : List Vec2, 0 ≤ polyLen d ps := by
  intro ps
  induction ps with
  | nil => simp [polyLen]
  | cons p rest ih =>
    cases rest with
    | nil => simp [polyLen]
    | cons q rest' =>
      show 0 ≤ d p q + polyLen d (q :: rest')
      exact add_nonneg (hd p q) ih

/-- The edge-distance tail is sorted, and each entry lies between the
accumulated distance and the accumulated distance plus the remaining
polyline length. -/
theorem edgeDistsFrom_props (d : Vec2 → Vec2 → ℚ) (hd : ∀ a b, 0 ≤ d a b) :
    ∀ (ps : List Vec2) (acc : ℚ) (prev : Vec2),
      List.Sorted (· ≤ ·) (edgeDistsFrom d acc prev ps) ∧
      ∀ x ∈ edgeDistsFrom d acc prev ps,
        acc ≤ x ∧ x ≤ acc + polyLen d (prev :: ps) := by
  intro ps
  induction ps with
  | nil =>
    intro acc prev
    simp [edgeDistsFrom]
  | cons p rest ih =>
    intro acc prev
    obtain ⟨ihs, ihb⟩ := ih (acc + d prev p) p
    have hpoly : polyLen d (prev :: p :: rest) = d prev p + polyLen d (p :: rest) := rfl
    constructor
    · show List.Sorted (· ≤ ·) ((acc + d prev p) :: edgeDistsFrom d (acc + d prev p) p rest)
      exact List.sorted_cons.mpr ⟨fun x hx => (ihb x hx).1, ihs⟩
    · intro x hx
      rw [show edgeDistsFrom d acc prev (p :: rest)
            = (acc + d prev p) :: edgeDistsFrom d (acc + d prev p) p rest from rfl,
        List.mem_cons] at hx
      rcases hx with rfl | hx
      · constructor
        · linarith [hd prev p]
        · rw [hpoly]
          linarith [polyLen_nonneg d hd (p :: rest)]
      · obtain ⟨h1, h2⟩ := ihb x hx
        constructor
        · linarith [hd prev p]
        · rw [hpoly]; linarith

/-- The last edge-distance value equals the accumulated distance plus
the remaining polyline length. -/
theorem edgeDistsFrom_getLastD (d : Vec2 → Vec2 → ℚ) :
    ∀ (ps : List Vec2) (acc : ℚ) (prev : Vec2),
      (edgeDistsFrom d acc prev ps).getLastD acc = acc + polyLen d (prev :: ps) := by
  intro ps
  induction ps with
  | nil =>
    intro acc prev
    simp [edgeDistsFrom, polyLen]
  | cons p rest ih =>
    intro acc prev
    rw [show edgeDistsFrom d acc prev (p :: rest)
          = (acc + d prev p) :: edgeDistsFrom d (acc + d prev p) p rest from rfl,
      List.getLastD_cons, ih]
    show acc + d prev p + polyLen d (p :: rest) = acc + (d prev p + polyLen d (p :: rest))
    ring

/-- `getLast?` of a cons cell in terms of `getLastD`. -/
theorem getLast?_cons_eq {α : Type} (a : α) (l : List α) :
    (a :: l).getLast? = some (l.getLastD a) := by
  induction l generalizing a with
  | nil => rfl
  | cons b l ih => rw [List.getLast?_cons_cons, ih, List.getLastD_cons]

/-- `getLastD` commutes with mapping a function over the list when the
fallback is mapped too. -/
theorem getLastD_map {α β : Type} (f : α → β) (l : List α) :
    ∀ a : α, (l.map f).getLastD (f a) = f (l.getLastD a) := by
  induction l with
  | nil => intro a; rfl
  | cons b l ih =>
    intro a
    rw [List.map_cons, List.getLastD_cons, List.getLastD_cons, ih]

/-- Every edge-distance list is sorted, starts at 0, and is bounded by
the edge's polyline length. -/
theorem edgeDists_props (d : Vec2 → Vec2 → ℚ) (hd : ∀ a b, 0 ≤ d a b)
    (e : List Vec2) :
    List.Sorted (· ≤ ·) (edgeDists d e) ∧
    ∀ x ∈ edgeDists d e, 0 ≤ x ∧ x ≤ polyLen d e := by
  cases e with
  | nil => simp [edgeDists]
  | cons p rest =>
    obtain ⟨hs, hb⟩ := edgeDistsFrom_props d hd rest 0 p
    have hb' : ∀ x ∈ edgeDistsFrom d 0 p rest, 0 ≤ x ∧ x ≤ polyLen d (p :: rest) := by
      intro x hx
      obtain ⟨h1, h2⟩ := hb x hx
      exact ⟨h1, by linarith⟩
    constructor
    · rw [show edgeDists d (p :: rest) = 0 :: edgeDistsFrom d 0 p rest from rfl]
      exact List.sorted_cons.mpr ⟨fun x hx => (hb' x hx).1, hs⟩
    · intro x hx
      rw [show edgeDists d (p :: rest) = 0 :: edgeDistsFrom d 0 p rest from rfl,
        List.mem_cons] at hx
      rcases hx with rfl | hx
      · exact ⟨le_refl 0, polyLen_nonneg d hd (p :: rest)⟩
      · exact hb' x hx

/-- First value of a nonempty edge's shifted distance block. -/
theorem block_head (d : Vec2 → Vec2 → ℚ) (acc : ℚ) (p : Vec2) (rest : List Vec2) :
    ((edgeDists d (p :: rest)).map (fun x => acc + x)).head? = some acc := by
  rw [show edgeDists d (p :: rest) = 0 :: edgeDistsFrom d 0 p rest from rfl,
    List.map_cons]
  simp

/-- Last value of a nonempty edge's shifted distance block. -/
theorem block_getLast (d : Vec2 → Vec2 → ℚ) (acc : ℚ) (p : Vec2) (rest : List Vec2) :
    ((edgeDists d (p :: rest)).map (fun x => acc + x)).getLast?
      = some (acc + polyLen d (p :: rest)) := by
  rw [show edgeDists d (p :: rest) = 0 :: edgeDistsFrom d 0 p rest from rfl,
    List.map_cons, getLast?_cons_eq]
  rw [show ((acc : ℚ) + 0) = (fun x => acc + x) 0 from by simp, getLastD_map]
  have h := edgeDistsFrom_getLastD d rest 0 p
  rw [h]
  simp

/-- The concatenated contour distances are sorted and bounded below by
the starting arclength. -/
theorem contourDistBlocks_sorted (d : Vec2 → Vec2 → ℚ) (hd : ∀ a b, 0 ≤ d a b) :
    ∀ (edges : List (List Vec2)) (acc : ℚ),
      List.Sorted (· ≤ ·) (contourDistBlocks d acc edges).flatten ∧
      ∀ x ∈ (contourDistBlocks d acc edges).flatten, acc ≤ x := by
  intro edges
  induction edges with
  | nil =>
    intro acc
    simp [contourDistBlocks]
  | cons e rest ih =>
    intro acc
    obtain ⟨ihs, ihb⟩ := ih (acc + polyLen d e)
    obtain ⟨hes, heb⟩ := edgeDists_props d hd e
    have hblk : List.Sorted (· ≤ ·) ((edgeDists d e).map (fun x => acc + x)) := by
      show List.Pairwise _ _
      exact List.pairwise_map.mpr (hes.imp fun h => by linarith)
    have hblkb : ∀ x ∈ (edgeDists d e).map (fun x => acc + x),
        acc ≤ x ∧ x ≤ acc + polyLen d e := by
      intro x hx
      obtain ⟨y, hy, rfl⟩ := List.mem_map.mp hx
      obtain ⟨h1, h2⟩ := heb y hy
      exact ⟨by linarith, by linarith⟩
    have hunfold : contourDistBlocks d acc (e :: rest)
        = ((edgeDists d e).map (fun x => acc + x)) ::
          contourDistBlocks d (acc + polyLen d e) rest := rfl
    constructor
    · rw [hunfold, List.flatten_cons]
      refine List.pairwise_append.mpr ⟨hblk, ihs, ?_⟩
      intro x hx y hy
      have h1 := (hblkb x hx).2
      have h2 := ihb y hy
      linarith
    · intro x hx
      rw [hunfold, List.flatten_cons, List.mem_append] at hx
      rcases hx with hx | hx
      · exact (hblkb x hx).1
      · have h1 := ihb x hx
        have h2 := polyLen_nonneg d hd e
        linarith

/-- Distance blocks of consecutive edges agree at the shared boundary
sample: each block's last value equals the next block's first value. -/
theorem contourDistBlocks_chain (d : Vec2 → Vec2 → ℚ) :
    ∀ (edges : List (List Vec2)) (acc : ℚ), (∀ e ∈ edges, e ≠ []) →
      List.Chain' (fun b b' => b.getLast? = b'.head?)
        (contourDistBlocks d acc edges) := by
  intro edges
  induction edges with
  | nil =>
    intro acc _
    simp [contourDistBlocks]
  | cons e rest ih =>
    intro acc he
    cases rest with
    | nil => simp [contourDistBlocks]
    | cons e2 rest2 =>
      have he1 : e ≠ [] := he e (by simp)
      have he2 : e2 ≠ [] := he e2 (by simp)
      obtain ⟨p, tl, rfl⟩ := List.exists_cons_of_ne_nil he1
      obtain ⟨q, tl2, rfl⟩ := List.exists_cons_of_ne_nil he2
      rw [show contourDistBlocks d acc ((p :: tl) :: (q :: tl2) :: rest2)
            = ((edgeDists d (p :: tl)).map (fun x => acc + x)) ::
              ((edgeDists d (q :: tl2)).map
                (fun x => (acc + polyLen d (p :: tl)) + x)) ::
              contourDistBlocks d
                ((acc + polyLen d (p :: tl)) + polyLen d (q :: tl2)) rest2 from rfl]
      refine List.chain'_cons.mpr ⟨?_, ?_⟩
      · rw [block_getLast, block_head]
      · exact ih (acc + polyLen d (p :: tl))
          (fun x hx => he x (List.mem_cons_of_mem _ hx))

/-- In the block of a non-degenerate (positive-length) edge, the last
contour-distance value strictly exceeds the first. -/
theorem contourDistBlocks_strict (d : Vec2 → Vec2 → ℚ) :
    ∀ (edges : List (List Vec2)) (acc : ℚ) (j : ℕ), j < edges.length →
      (∀ e ∈ edges, e ≠ []) → 0 < polyLen d (edges.getD j []) →
      ((contourDistBlocks d acc edges).getD j []).headD 0 <
        ((contourDistBlocks d acc edges).getD j []).getLastD 0 := by
  intro edges
  induction edges with
  | nil =>
    intro acc j hj _ _
    simp at hj
  | cons e rest ih =>
    intro acc j hj he hpos
    cases j with
    | zero =>
      have he1 : e ≠ [] := he e (by simp)
      obtain ⟨p, tl, rfl⟩ := List.exists_cons_of_ne_nil he1
      rw [show contourDistBlocks d acc ((p :: tl) :: rest)
            = ((edgeDists d (p :: tl)).map (fun x => acc + x)) ::
              contourDistBlocks d (acc + polyLen d (p :: tl)) rest from rfl,
        List.getD_cons_zero]
      rw [List.headD_eq_head?, block_head d acc p tl,
        List.getLastD_eq_getLast?, block_getLast d acc p tl]
      simp only [Option.getD_some]
      have hp : 0 < polyLen d (p :: tl) := by simpa using hpos
      linarith
    | succ j' =>
      rw [show contourDistBlocks d acc (e :: rest)
            = ((edgeDists d e).map (fun x => acc + x)) ::
              contourDistBlocks d (acc + polyLen d e) rest from rfl,
        List.getD_cons_succ]
      exact ih (acc + polyLen d e) j' (by simpa using hj)
        (fun x hx => he x (List.mem_cons_of_mem _ hx)) (by simpa using hpos)

/-- C4: within any single edge the `m_distance_from_edge_start` values
are non-decreasing in buffer order; within one contour the
`m_distance_from_contour_start` values are non-decreasing in buffer
order, agree at each edge boundary (the duplicated shared sample), and
strictly increase over every non-degenerate (positive-length) edge. -/
theorem C4_distances_monotone (d : Vec2 → Vec2 → ℚ) (hd : ∀ a b, 0 ≤ d a b)
    (edges : List (List Vec2)) (he : ∀ e ∈ edges, e ≠ []) :
    (∀ e : List Vec2, List.Sorted (· ≤ ·) (edgeDists d e)) ∧
    List.Sorted (· ≤ ·) (contourDists d edges) ∧
    List.Chain' (fun b b' => b.getLast? = b'.head?) (contourDistBlocks d 0 edges) ∧
    (∀ j : ℕ, j < edges.length → 0 < polyLen d (edges.getD j []) →
      ((contourDistBlocks d 0 edges).getD j []).headD 0 <
        ((contourDistBlocks d 0 edges).getD j []).getLastD 0) :=
  ⟨fun e => (edgeDists_props d hd e).1,
   (contourDistBlocks_sorted d hd edges 0).1,
   contourDistBlocks_chain d edges 0 he,
   fun j hj hpos => contourDistBlocks_strict d edges 0 j hj he hpos⟩

/-- C4 witness: the theorem applied, under the taxicab metric, to a
concrete contour with two flat edges. -/
theorem C4_witness :
    ((contourDistBlocks (fun a b => |a.1 - b.1| + |a.2 - b.2|) 0
        [[((0 : ℚ), (0 : ℚ)), (1, 0)], [(1, 0), (0, 0)]]).getD 0 []).headD 0 <
      ((contourDistBlocks (fun a b => |a.1 - b.1| + |a.2 - b.2|) 0
        [[((0 : ℚ), (0 : ℚ)), (1, 0)], [(1, 0), (0, 0)]]).getD 0 []).getLastD 0 :=
  (C4_distances_monotone (fun a b => |a.1 - b.1| + |a.2 - b.2|)
    (fun _ _ => add_nonneg (abs_nonneg _) (abs_nonneg _))
    [[((0 : ℚ), (0 : ℚ)), (1, 0)], [(1, 0), (0, 0)]]
    (by decide)).2.2.2 0 (by decide) (by norm_num [polyLen])

/-- C10: a default-constructed `TessellationParams` has curvature-mode
tessellation enabled, threshold π/30 and max segments 32, and a `Path`
constructed without explicit parameters stores exactly these defaults. -/
theorem C10_default_tessellation_params :
    TessellationParams.mkDefault.m_curvature_tessellation = true ∧
    TessellationParams.mkDefault.m_threshhold = Real.pi / 30 ∧
    TessellationParams.mkDefault.m_max_segments = 32 ∧
    mkPathDefault.tess_params = TessellationParams.mkDefault := by
  refine ⟨rfl, rfl, rfl, rfl⟩

/-- C8: out-of-range chunk queries never fail — for every index at or
past the end of the stored chunk arrays, `attribute_data_chunk` and
`index_data_chunk` return an empty chunk and `increment_z_value`
returns 0. -/
theorem C8_out_of_range_chunks (D : PainterAttributeDataM) (i : ℕ)
    (ha : D.attribute_chunks.length ≤ i) (hi : D.index_chunks.length ≤ i)
    (hz : D.zincs.length ≤ i) :
    attribute_data_chunk D i = [] ∧ index_data_chunk D i = [] ∧
    increment_z_value D i = 0 := by
  refine ⟨?_, ?_, ?_⟩
  · rw [attribute_data_chunk, List.getD_eq_getElem?_getD,
      List.getElem?_eq_none ha, Option.getD_none]
  · rw [index_data_chunk, List.getD_eq_getElem?_getD,
      List.getElem?_eq_none hi, Option.getD_none]
  · rw [increment_z_value, List.getD_eq_getElem?_getD,
      List.getElem?_eq_none hz, Option.getD_none]

/-- C8 witness: the theorem applied to a concrete `PainterAttributeData`
holding one chunk, queried at index 3. -/
theorem C8_witness :
    attribute_data_chunk ⟨[[]], [[0, 1, 2]], [1]⟩ 3 = [] ∧
    index_data_chunk ⟨[[]], [[0, 1, 2]], [1]⟩ 3 = [] ∧
    increment_z_value ⟨[[]], [[0, 1, 2]], [1]⟩ 3 = 0 :=
  C8_out_of_range_chunks ⟨[[]], [[0, 1, 2]], [1]⟩ 3
    (by decide) (by decide) (by decide)

/-- C9: a non-empty scale-factor array whose length differs from the
glyph-position array makes the glyph `set_data` call a fail-fast
contract violation, never a recoverable result; under the precondition
that the array is empty or of exactly equal length, the failure branch
is unreachable and the call packs normally. -/
theorem C9_scale_factor_contract (yDown : Bool) (glyph_positions : List Vec2)
    (glyphs : List Glyph) (scale_factors : List ℚ) :
    (¬scale_factors.isEmpty →
      scale_factors.length ≠ glyph_positions.length →
      glyph_set_data yDown glyph_positions glyphs scale_factors
        = Except.error ()) ∧
    ((scale_factors.isEmpty ∨
        scale_factors.length = glyph_positions.length) →
      glyph_set_data yDown glyph_positions glyphs scale_factors
        = Except.ok (packGlyphsLoop yDown emptyGlyphChunks 0
            (glyphInputs glyph_positions glyphs scale_factors))) := by
  constructor
  · intro h1 h2
    rw [glyph_set_data, if_pos ⟨h1, h2⟩]
  · intro h
    rcases h with h | h
    · rw [glyph_set_data, if_neg (fun hc => hc.1 h)]
    · rw [glyph_set_data, if_neg (fun hc => hc.2 h)]

/-- C9 witness: a concrete mismatched call fails fast and a concrete
well-formed call packs normally. -/
theorem C9_witness :
    glyph_set_data false [((0 : ℚ), (0 : ℚ))]
      [⟨true, 0, (0, 0), 0, (0, 0), 0, (1, 1), 0⟩] [1, 2]
      = Except.error () ∧
    glyph_set_data false [((0 : ℚ), (0 : ℚ))]
      [⟨true, 0, (0, 0), 0, (0, 0), 0, (1, 1), 0⟩] []
      = Except.ok (packGlyphsLoop false emptyGlyphChunks 0
          (glyphInputs [((0 : ℚ), (0 : ℚ))]
            [⟨true, 0, (0, 0), 0, (0, 0), 0, (1, 1), 0⟩] [])) :=
  ⟨(C9_scale_factor_contract false [((0 : ℚ), (0 : ℚ))]
      [⟨true, 0, (0, 0), 0, (0, 0), 0, (1, 1), 0⟩] [1, 2]).1
      (by decide) (by decide),
   (C9_scale_factor_contract false [((0 : ℚ), (0 : ℚ))]
      [⟨true, 0, (0, 0), 0, (0, 0), 0, (1, 1), 0⟩] []).2
      (Or.inl rfl)⟩

/-- C7: while the Path is unmodified, repeated `tessellation()` calls
return the same cached instance with identical content (built from the
current geometry and parameters); after a geometry or
tessellation-parameter change, the next call constructs a new
`TessellatedPath` (a different instance, built from the new inputs). -/
theorem C7_tessellation_caching {G P T : Type} (build : G → P → T)
    (s : PathState G P T)
    (hwf : ∀ i t, s.cache = some (i, t) →
      i < s.next_id ∧ t = build s.geometry s.params) :
    (Path_tessellation build (Path_tessellation build s).2
      = Path_tessellation build s) ∧
    ((Path_tessellation build s).1.2 = build s.geometry s.params) ∧
    (∀ g : G,
      (Path_tessellation build
          (Path_set_geometry (Path_tessellation build s).2 g)).1.1
        ≠ (Path_tessellation build s).1.1 ∧
      (Path_tessellation build
          (Path_set_geometry (Path_tessellation build s).2 g)).1.2
        = build g s.params) ∧
    (∀ p : P,
      (Path_tessellation build
          (Path_set_params (Path_tessellation build s).2 p)).1.1
        ≠ (Path_tessellation build s).1.1 ∧
      (Path_tessellation build
          (Path_set_params (Path_tessellation build s).2 p)).1.2
        = build s.geometry p) := by
  cases hc : s.cache with
  | none =>
    refine ⟨?_, ?_, ?_, ?_⟩
    · simp [Path_tessellation, hc]
    · simp [Path_tessellation, hc]
    · intro g
      constructor
      · simp [Path_tessellation, Path_set_geometry, hc]
      · simp [Path_tessellation, Path_set_geometry, hc]
    · intro p
      constructor
      · simp [Path_tessellation, Path_set_params, hc]
      · simp [Path_tessellation, Path_set_params, hc]
  | some c =>
    obtain ⟨i, t⟩ := c
    obtain ⟨hlt, ht⟩ := hwf i t hc
    refine ⟨?_, ?_, ?_, ?_⟩
    · simp [Path_tessellation, hc]
    · simp [Path_tessellation, hc, ht]
    · intro g
      constructor
      · simp only [Path_tessellation, Path_set_geometry, hc]
        exact fun h => absurd (h ▸ hlt) (lt_irrefl i)
      · simp [Path_tessellation, Path_set_geometry, hc]
    · intro p
      constructor
      · simp only [Path_tessellation, Path_set_params, hc]
        exact fun h => absurd (h ▸ hlt) (lt_irrefl i)
      · simp [Path_tessellation, Path_set_params, hc]

/-- C7 witness: the theorem applied to a concrete path state with an
empty cache and a concrete build function. -/
theorem C7_witness :
    (Path_tessellation (fun g p => g + p)
        (⟨2, 3, none, 0⟩ : PathState ℕ ℕ ℕ)).1.2 = 5 :=
  (C7_tessellation_caching (fun g p => g + p) ⟨2, 3, none, 0⟩
    (fun _ _ h => Option.noConfusion h)).2.1

/-- A `set_data` call whose scale-factor array is empty or matches the
position array in length takes the packing branch. -/
theorem glyph_set_data_valid (yDown : Bool) (glyph_positions : List Vec2)
    (glyphs : List Glyph) (scale_factors : List ℚ)
    (hsc : scale_factors.isEmpty ∨
      scale_factors.length = glyph_positions.length) :
    glyph_set_data yDown glyph_positions glyphs scale_factors
      = Except.ok (packGlyphsLoop yDown emptyGlyphChunks 0
          (glyphInputs glyph_positions glyphs scale_factors)) := by
  rcases hsc with h | h
  · rw [glyph_set_data, if_neg (fun hc => hc.1 h)]
  · rw [glyph_set_data, if_neg (fun hc => hc.2 h)]

/-- With matched arrays the per-glyph input list has one entry per
glyph. -/
theorem glyphInputs_length (glyph_positions : List Vec2)
    (glyphs : List Glyph) (scale_factors : List ℚ)
    (hlen : glyphs.length = glyph_positions.length)
    (hsc : scale_factors.isEmpty ∨
      scale_factors.length = glyph_positions.length) :
    (glyphInputs glyph_positions glyphs scale_factors).length
      = glyphs.length := by
  have hS : (if scale_factors.isEmpty
      then glyph_positions.map (fun _ => (1 : ℚ))
      else scale_factors).length = glyph_positions.length := by
    rcases hsc with h | h
    · rw [if_pos h, List.length_map]
    · split
      · rw [List.length_map]
      · exact h
  rw [glyphInputs, List.length_zip, List.length_zip, hS, Nat.min_self,
    hlen, Nat.min_self]

/-- The packing loop consumes every glyph when all uploads succeed. -/
theorem packGlyphsLoop_all_success (yDown : Bool) :
    ∀ (l : List (Glyph × Vec2 × ℚ)) (cs : GlyphChunks) (done : ℕ),
      (∀ x ∈ l, x.1.uploads = true) →
      (packGlyphsLoop yDown cs done l).1 = done + l.length := by
  intro l
  induction l with
  | nil =>
    intro cs done _
    simp [packGlyphsLoop]
  | cons x rest ih =>
    intro cs done h
    obtain ⟨g, pos, sc⟩ := x
    have hg : g.uploads = true := h (g, pos, sc) (by simp)
    rw [show packGlyphsLoop yDown cs done ((g, pos, sc) :: rest)
          = if g.uploads then
              packGlyphsLoop yDown (appendGlyph yDown cs g pos sc)
                (done + 1) rest
            else (done, cs) from rfl,
      if_pos hg, ih _ _ (fun y hy => h y (List.mem_cons_of_mem _ hy)),
      List.length_cons]
    omega

/-- The packing loop stops at the first failing glyph, returning its
index and the chunks built from exactly the glyphs before it. -/
theorem packGlyphsLoop_first_failure (yDown : Bool) :
    ∀ (l1 : List (Glyph × Vec2 × ℚ)) (x : Glyph × Vec2 × ℚ)
      (l2 : List (Glyph × Vec2 × ℚ)) (cs : GlyphChunks) (done : ℕ),
      (∀ y ∈ l1, y.1.uploads = true) → x.1.uploads = false →
      packGlyphsLoop yDown cs done (l1 ++ x :: l2)
        = (done + l1.length, (packGlyphsLoop yDown cs done l1).2) := by
  intro l1
  induction l1 with
  | nil =>
    intro x l2 cs done _ hx
    obtain ⟨g, pos, sc⟩ := x
    have hg : ¬(g.uploads = true) := by simp_all
    rw [List.nil_append,
      show packGlyphsLoop yDown cs done ((g, pos, sc) :: l2)
          = if g.uploads then
              packGlyphsLoop yDown (appendGlyph yDown cs g pos sc)
                (done + 1) l2
            else (done, cs) from rfl,
      if_neg hg]
    simp [packGlyphsLoop]
  | cons y rest ih =>
    intro x l2 cs done hy hx
    obtain ⟨g, pos, sc⟩ := y
    have hg : g.uploads = true := hy (g, pos, sc) (by simp)
    rw [List.cons_append,
      show packGlyphsLoop yDown cs done ((g, pos, sc) :: (rest ++ x :: l2))
          = if g.uploads then
              packGlyphsLoop yDown (appendGlyph yDown cs g pos sc)
                (done + 1) (rest ++ x :: l2)
            else (done, cs) from rfl,
      if_pos hg,
      ih x l2 _ (done + 1) (fun z hz => hy z (List.mem_cons_of_mem _ hz)) hx,
      show packGlyphsLoop yDown cs done ((g, pos, sc) :: rest)
          = if g.uploads then
              packGlyphsLoop yDown (appendGlyph yDown cs g pos sc)
                (done + 1) rest
            else (done, cs) from rfl,
      if_pos hg]
    simp only [Prod.mk.injEq, List.length_cons]
    exact ⟨by omega, trivial⟩

/-- C1: a glyph `set_data` call with matched arrays raises no exception
(it returns a packing result); if every glyph uploads it returns the
number of glyphs; if glyph `k` is the first whose upload fails it
returns `k` and the produced chunks are exactly those packed from
glyphs `[0, k)`; and a follow-up call on the remaining suffix, once the
cache has recovered so every remaining glyph uploads, returns `N − k`. -/
theorem C1_glyph_partial_failure (yDown : Bool) (glyph_positions : List Vec2)
    (glyphs : List Glyph) (scale_factors : List ℚ)
    (hlen : glyphs.length = glyph_positions.length)
    (hsc : scale_factors.isEmpty ∨
      scale_factors.length = glyph_positions.length) :
    (glyph_set_data yDown glyph_positions glyphs scale_factors
      = Except.ok (packGlyphsLoop yDown emptyGlyphChunks 0
          (glyphInputs glyph_positions glyphs scale_factors))) ∧
    ((∀ g ∈ glyphs, g.uploads = true) →
      (packGlyphsLoop yDown emptyGlyphChunks 0
          (glyphInputs glyph_positions glyphs scale_factors)).1
        = glyphs.length) ∧
    (∀ (k : ℕ) (x : Glyph × Vec2 × ℚ),
      ((glyphInputs glyph_positions glyphs scale_factors).drop k).head?
        = some x →
      x.1.uploads = false →
      (∀ y ∈ (glyphInputs glyph_positions glyphs scale_factors).take k,
        y.1.uploads = true) →
      packGlyphsLoop yDown emptyGlyphChunks 0
          (glyphInputs glyph_positions glyphs scale_factors)
        = (k, (packGlyphsLoop yDown emptyGlyphChunks 0
            ((glyphInputs glyph_positions glyphs scale_factors).take k)).2)) ∧
    (∀ (k : ℕ) (glyphs2 : List Glyph),
      glyphs2.length = glyphs.length - k →
      (∀ g ∈ glyphs2, g.uploads = true) →
      glyph_set_data yDown (glyph_positions.drop k) glyphs2 []
        = Except.ok (packGlyphsLoop yDown emptyGlyphChunks 0
            (glyphInputs (glyph_positions.drop k) glyphs2 [])) ∧
      (packGlyphsLoop yDown emptyGlyphChunks 0
          (glyphInputs (glyph_positions.drop k) glyphs2 [])).1
        = glyphs.length - k) := by
  refine ⟨glyph_set_data_valid yDown glyph_positions glyphs scale_factors hsc,
    ?_, ?_, ?_⟩
  · intro hg
    have hcond : ∀ x ∈ glyphInputs glyph_positions glyphs scale_factors,
        x.1.uploads = true := by
      intro x hx
      obtain ⟨g, ps⟩ := x
      exact hg g (List.of_mem_zip hx).1
    rw [packGlyphsLoop_all_success yDown _ emptyGlyphChunks 0 hcond,
      glyphInputs_length glyph_positions glyphs scale_factors hlen hsc]
    omega
  · intro k x hx hxf hpre
    set L := glyphInputs glyph_positions glyphs scale_factors with hL
    have h1 : L.drop k = x :: (L.drop k).tail := by
      cases hdk : L.drop k with
      | nil => rw [hdk] at hx; simp at hx
      | cons a t =>
        rw [hdk] at hx
        have hax : a = x := by simpa using hx
        simp [hax]
    have hklt : k < L.length := by
      by_contra hcon
      push_neg at hcon
      rw [List.drop_eq_nil_of_le hcon] at h1
      exact List.noConfusion h1
    have hk : (L.take k).length = k := by
      rw [List.length_take]
      exact Nat.min_eq_left (Nat.le_of_lt hklt)
    have hdecomp : L = L.take k ++ x :: (L.drop k).tail := by
      conv_lhs => rw [← List.take_append_drop k L, h1]
    conv_lhs => rw [hdecomp]
    rw [packGlyphsLoop_first_failure yDown (L.take k) x ((L.drop k).tail)
      emptyGlyphChunks 0 hpre hxf, hk, Nat.zero_add]
  · intro k glyphs2 hlen2 hg2
    have hlenp : glyphs2.length = (glyph_positions.drop k).length := by
      rw [List.length_drop, hlen2, hlen]
    refine ⟨glyph_set_data_valid yDown (glyph_positions.drop k) glyphs2 []
      (Or.inl rfl), ?_⟩
    have hcond : ∀ x ∈ glyphInputs (glyph_positions.drop k) glyphs2 [],
        x.1.uploads = true := by
      intro x hx
      obtain ⟨g, ps⟩ := x
      exact hg2 g (List.of_mem_zip hx).1
    rw [packGlyphsLoop_all_success yDown _ emptyGlyphChunks 0 hcond,
      glyphInputs_length (glyph_positions.drop k) glyphs2 [] hlenp
        (Or.inl rfl), hlen2]
    omega

/-- C1 witness: applied to a concrete two-glyph call in which the second
glyph's upload fails — exactly one glyph is packed and 1 is returned. -/
theorem C1_witness :
    (packGlyphsLoop false emptyGlyphChunks 0
        (glyphInputs [((0 : ℚ), (0 : ℚ)), (2, 0)]
          [⟨true, 0, (0, 0), 0, (0, 0), 0, (1, 1), 0⟩,
           ⟨false, 1, (0, 0), 0, (0, 0), 0, (1, 1), 0⟩] [])).1 = 1 := by
  have h := (C1_glyph_partial_failure false [((0 : ℚ), (0 : ℚ)), (2, 0)]
      [⟨true, 0, (0, 0), 0, (0, 0), 0, (1, 1), 0⟩,
       ⟨false, 1, (0, 0), 0, (0, 0), 0, (1, 1), 0⟩] []
      (by decide) (Or.inl rfl)).2.2.1 1
      (⟨false, 1, (0, 0), 0, (0, 0), 0, (1, 1), 0⟩, (2, 0), 1)
      (by decide) (by decide) (by decide)
  rw [h]

/-- C6 counterexample: the claim places the item-space position in
`secondary.xyz` (with only `.w` zeroed), but in the packed records the
position occupies `secondary.xy` only — `secondary.z` is the defined
zero of a free field: for the same glyph placed at `(5, 7)` and at
`(9, 13)` the secondary attribute is `(5, 7, 0, 0)` and `(9, 13, 0, 0)`
respectively, the third component a constant 0 that is no coordinate of
either position. -/
theorem C6_counterexample :
    ((glyphQuad false ⟨true, 3, (10, 11), 4, (20, 21), 5, (1, 1), 0⟩
        (5, 7) 1).head?.map (fun a => a.m_secondary_attrib))
      = some ⟨5, 7, 0, 0⟩ ∧
    ((glyphQuad false ⟨true, 3, (10, 11), 4, (20, 21), 5, (1, 1), 0⟩
        (9, 13) 1).head?.map (fun a => a.m_secondary_attrib))
      = some ⟨9, 13, 0, 0⟩ ∧
    (0 : ℚ) ≠ 5 ∧ (0 : ℚ) ≠ 7 := by
  refine ⟨?_, ?_, by norm_num, by norm_num⟩
  · simp [glyphQuad, quadCorners, packGlyphAttr]
  · simp [glyphQuad, quadCorners, packGlyphAttr]

/-- C6 (amended): in every glyph-chunk attribute record, primary.xy
holds the primary-atlas texel location, primary.zw the secondary-atlas
texel location, secondary.xy the item-space position, secondary.z and
secondary.w are 0, uint.x is 0, uint.y holds the glyph offset (handle),
uint.z the primary-atlas layer and uint.w the secondary-atlas layer;
every unused field is a defined zero. -/
theorem C6_glyph_attribute_layout (yDown : Bool) (g : Glyph) (pos : Vec2)
    (scale : ℚ) :
    ∀ a ∈ glyphQuad yDown g pos scale,
      a.m_secondary_attrib.z = 0 ∧ a.m_secondary_attrib.w = 0 ∧
      a.m_uint_attrib.x = 0 ∧ a.m_uint_attrib.y = g.glyph_offset ∧
      a.m_uint_attrib.z = g.primary_layer ∧
      a.m_uint_attrib.w = g.secondary_layer ∧
      ∃ texP texS ip : Vec2,
        a = packGlyphAttr g texP texS ip ∧
        a.m_primary_attrib = ⟨texP.1, texP.2, texS.1, texS.2⟩ ∧
        a.m_secondary_attrib = ⟨ip.1, ip.2, 0, 0⟩ := by
  intro a ha
  simp only [glyphQuad, List.mem_map] at ha
  obtain ⟨u, hu, rfl⟩ := ha
  exact ⟨rfl, rfl, rfl, rfl, rfl, rfl, _, _, _, rfl, rfl, rfl⟩

/-- C6 witness: the amended layout theorem applied to a concrete record
of a concrete glyph quad. -/
theorem C6_witness :
    (packGlyphAttr ⟨true, 3, (10, 11), 4, (20, 21), 5, (1, 1), 0⟩
        (10, 11) (20, 21) (5, 7)).m_secondary_attrib.z = 0 :=
  ((C6_glyph_attribute_layout false
      ⟨true, 3, (10, 11), 4, (20, 21), 5, (1, 1), 0⟩ (5, 7) 1)
    (packGlyphAttr ⟨true, 3, (10, 11), 4, (20, 21), 5, (1, 1), 0⟩
      (10, 11) (20, 21) (5, 7))
    (by simp [glyphQuad, quadCorners, packGlyphAttr])).1

end FastUIDraw
